import Mathlib

/-!
Verification of the leaderboard router and its collaborators.

The repository source under scrutiny is the tRPC leaderboard router
(`leaderboardRouter` with its `expireAt` helper).  The router delegates to
`leaderboard.service` (RankingEngine / PositionResolver) and to the
`edgeCacheIt` middleware (TimeWindowedCache); those collaborators are not part
of the available sources, so they are modelled from the specification where a
claim depends on them, as marked in the doc comments below.
-/

/-- One entity's raw input for a given leaderboard/date: `entityId` plus a
numeric `score` (metadata omitted; it is opaque to ranking). -/
structure ScoredRow where
  entityId : Nat
  score : Int
deriving DecidableEq

/-- A `ScoredRow` augmented with its 1-based competition rank. -/
structure LeaderboardEntry where
  entityId : Nat
  score : Int
  rank : Nat
deriving DecidableEq

/-- The sort order of the ranking engine: descending by score, ties broken by
entity identifier ascending. -/
def rowOrd (a b : ScoredRow) : Prop :=
  b.score < a.score ∨ (a.score = b.score ∧ a.entityId ≤ b.entityId)

instance rowOrd.decidableRel : DecidableRel rowOrd := fun a b => by
  unfold rowOrd; infer_instance

instance rowOrd.total : IsTotal ScoredRow rowOrd where
  total a b := by
    unfold rowOrd
    rcases lt_trichotomy a.score b.score with h | h | h
    · exact Or.inr (Or.inl h)
    · rcases Nat.le_total a.entityId b.entityId with h2 | h2
      · exact Or.inl (Or.inr ⟨h, h2⟩)
      · exact Or.inr (Or.inr ⟨h.symm, h2⟩)
    · exact Or.inl (Or.inl h)

instance rowOrd.trans : IsTrans ScoredRow rowOrd where
  trans a b c hab hbc := by
    unfold rowOrd at *
    rcases hab with h1 | ⟨h1, h1i⟩ <;> rcases hbc with h2 | ⟨h2, h2i⟩
    · exact Or.inl (h2.trans h1)
    · exact Or.inl (h2 ▸ h1)
    · exact Or.inl (h1 ▸ h2)
    · exact Or.inr ⟨h1.trans h2, h1i.trans h2i⟩

/-- Modelled from the spec: the RankingEngine's sort step
(`leaderboard.service` is not under the available sources).  Sorts rows
descending by `score`, ties broken by entity identifier ascending. -/
def sortRows (rows : List ScoredRow) : List ScoredRow :=
  rows.insertionSort rowOrd

/-- Modelled from the spec: standard competition rank of a score within a row
population — 1 plus the number of rows with a strictly greater score. -/
def rankOfScore (rows : List ScoredRow) (s : Int) : Nat :=
  1 + rows.countP (fun x => decide (s < x.score))

/-- Modelled from the spec: the RankingEngine (`rank` of §4.2,
`leaderboard.service` is not under the available sources).  Sorts rows
descending by score with ties broken by entity id ascending, then assigns
standard competition ranks. -/
def rank (rows : List ScoredRow) : List LeaderboardEntry :=
  (sortRows rows).map (fun r => ⟨r.entityId, r.score, rankOfScore (sortRows rows) r.score⟩)

/-- The worked example of §8: rows (A:100, B:90, C:90, D:80) with entity ids
A=1, B=2, C=3, D=4. -/
def exampleRows : List ScoredRow :=
  [⟨1, 100⟩, ⟨2, 90⟩, ⟨3, 90⟩, ⟨4, 80⟩]

example : rank exampleRows =
    [⟨1, 100, 1⟩, ⟨2, 90, 2⟩, ⟨3, 90, 2⟩, ⟨4, 80, 4⟩] := by decide

instance rowOrd.refl : IsRefl ScoredRow rowOrd where
  refl a := Or.inr ⟨rfl, le_refl _⟩

lemma rowOrd_score_le {a b : ScoredRow} (h : rowOrd a b) : b.score ≤ a.score := by
  rcases h with h | ⟨h, _⟩
  · exact le_of_lt h
  · exact le_of_eq h.symm

lemma sorted_sortRows (rows : List ScoredRow) : List.Sorted rowOrd (sortRows rows) :=
  List.sorted_insertionSort rowOrd rows

lemma perm_sortRows (rows : List ScoredRow) : (sortRows rows).Perm rows :=
  List.perm_insertionSort rowOrd rows

lemma sorted_score_anti {s : List ScoredRow} (hs : List.Sorted rowOrd s)
    {i j : Fin s.length} (hij : i ≤ j) : (s.get j).score ≤ (s.get i).score :=
  rowOrd_score_le (hs.rel_get_of_le hij)

lemma countP_le_of_imp {α : Type} (p q : α → Bool) :
    ∀ l : List α, (∀ x ∈ l, p x = true → q x = true) → l.countP p ≤ l.countP q := by
  intro l
  induction l with
  | nil => intro _; simp
  | cons a l ih =>
    intro h
    simp only [List.countP_cons]
    have h1 := ih (fun x hx => h x (List.mem_cons_of_mem a hx))
    by_cases hp : p a = true
    · have hq := h a (List.mem_cons_self a l) hp
      simp [hp, hq]; omega
    · simp only [Bool.not_eq_true] at hp
      simp [hp]; omega

lemma countP_split {α : Type} (p q e : α → Bool) :
    ∀ l : List α, (∀ x ∈ l, p x = true ↔ (q x = true ∨ e x = true)) →
      (∀ x ∈ l, ¬(q x = true ∧ e x = true)) →
      l.countP p = l.countP q + l.countP e := by
  intro l
  induction l with
  | nil => intro _ _; simp
  | cons a l ih =>
    intro hiff hexcl
    have h1 := ih (fun x hx => hiff x (List.mem_cons_of_mem a hx))
      (fun x hx => hexcl x (List.mem_cons_of_mem a hx))
    have ha := hiff a (List.mem_cons_self a l)
    have hb := hexcl a (List.mem_cons_self a l)
    simp only [List.countP_cons]
    by_cases hq : q a = true <;> by_cases he : e a = true
    · exact absurd ⟨hq, he⟩ hb
    · have hp : p a = true := ha.mpr (Or.inl hq)
      simp [hp, hq, he]; omega
    · have hp : p a = true := ha.mpr (Or.inr he)
      simp [hp, hq, he]; omega
    · have hp : ¬p a = true := fun hp => by rcases ha.mp hp with h | h <;> simp_all
      simp [hp, hq, he]; omega

lemma mem_rank_iff {rows : List ScoredRow} {e : LeaderboardEntry} :
    e ∈ rank rows ↔ ∃ r ∈ sortRows rows,
      e = ⟨r.entityId, r.score, rankOfScore (sortRows rows) r.score⟩ := by
  unfold rank
  constructor
  · intro h
    rcases List.mem_map.mp h with ⟨r, hr, he⟩
    exact ⟨r, hr, he.symm⟩
  · intro ⟨r, hr, he⟩
    exact List.mem_map.mpr ⟨r, hr, he.symm⟩

lemma rank_of_mem_rank {rows : List ScoredRow} {e : LeaderboardEntry}
    (h : e ∈ rank rows) : e.rank = rankOfScore (sortRows rows) e.score := by
  rcases mem_rank_iff.mp h with ⟨r, _, he⟩
  subst he; rfl

lemma rank_get (rows : List ScoredRow) (i : Nat) (h : i < (rank rows).length) :
    (rank rows).get ⟨i, h⟩ =
      ⟨((sortRows rows).get ⟨i, by simpa [rank] using h⟩).entityId,
       ((sortRows rows).get ⟨i, by simpa [rank] using h⟩).score,
       rankOfScore (sortRows rows) ((sortRows rows).get ⟨i, by simpa [rank] using h⟩).score⟩ := by
  unfold rank
  rw [List.get_map]

lemma countP_gt_skip {s : List ScoredRow} (hs : List.Sorted rowOrd s)
    {i : Nat} (h : i + 1 < s.length)
    (hne : (s.get ⟨i + 1, h⟩).score ≠ (s.get ⟨i, Nat.lt_of_succ_lt h⟩).score) :
    s.countP (fun x => decide ((s.get ⟨i + 1, h⟩).score < x.score))
      = s.countP (fun x => decide ((s.get ⟨i, Nat.lt_of_succ_lt h⟩).score < x.score))
        + s.countP (fun x => decide (x.score = (s.get ⟨i, Nat.lt_of_succ_lt h⟩).score)) := by
  set a := s.get ⟨i, Nat.lt_of_succ_lt h⟩ with ha
  set b := s.get ⟨i + 1, h⟩ with hb
  have hadj : rowOrd a b := by
    have : (⟨i, Nat.lt_of_succ_lt h⟩ : Fin s.length) < ⟨i + 1, h⟩ := by
      simp [Fin.lt_def]
    exact hs.rel_get_of_lt this
  have hba : b.score < a.score := lt_of_le_of_ne (rowOrd_score_le hadj) hne
  apply countP_split
  · intro x hx
    simp only [decide_eq_true_eq]
    constructor
    · intro hbx
      rcases List.mem_iff_get.mp hx with ⟨j, hj⟩
      rcases le_or_lt (j : Nat) i with hji | hji
      · have hax : a.score ≤ x.score := by
          have : (j : Fin s.length) ≤ ⟨i, Nat.lt_of_succ_lt h⟩ := hji
          have := sorted_score_anti hs this
          rw [hj] at this
          exact this
        rcases eq_or_lt_of_le hax with heq | hlt
        · exact Or.inr heq.symm
        · exact Or.inl hlt
      · have hxb : x.score ≤ b.score := by
          have : (⟨i + 1, h⟩ : Fin s.length) ≤ j := hji
          have := sorted_score_anti hs this
          rw [hj] at this
          exact this
        exact absurd (lt_of_lt_of_le hbx hxb) (lt_irrefl _)
    · intro hax
      rcases hax with hlt | heq
      · exact hba.trans hlt
      · exact heq ▸ hba
  · intro x _
    simp only [decide_eq_true_eq]
    rintro ⟨hlt, heq⟩
    exact absurd (heq ▸ hlt) (lt_irrefl _)

/-- C3: `rank` assigns standard competition ranks: rows with equal scores
receive equal rank; ranks are non-decreasing as score decreases; the rank
immediately after a tied group equals the previous rank plus the tied-group
size; and the §8 example rows (A:100, B:90, C:90, D:80) receive ranks
A=1, B=2, C=2, D=4. -/
theorem rank_standard_competition :
    (∀ rows : List ScoredRow, ∀ e1 ∈ rank rows, ∀ e2 ∈ rank rows,
        e1.score = e2.score → e1.rank = e2.rank)
    ∧ (∀ rows : List ScoredRow, ∀ e1 ∈ rank rows, ∀ e2 ∈ rank rows,
        e2.score ≤ e1.score → e1.rank ≤ e2.rank)
    ∧ (∀ rows : List ScoredRow, ∀ i : Nat, ∀ h : i + 1 < (rank rows).length,
        ((rank rows).get ⟨i + 1, h⟩).score ≠ ((rank rows).get ⟨i, Nat.lt_of_succ_lt h⟩).score →
        ((rank rows).get ⟨i + 1, h⟩).rank
          = ((rank rows).get ⟨i, Nat.lt_of_succ_lt h⟩).rank
            + (rank rows).countP
                (fun x => decide (x.score = ((rank rows).get ⟨i, Nat.lt_of_succ_lt h⟩).score)))
    ∧ rank exampleRows = [⟨1, 100, 1⟩, ⟨2, 90, 2⟩, ⟨3, 90, 2⟩, ⟨4, 80, 4⟩] := by
  refine ⟨?_, ?_, ?_, by decide⟩
  · intro rows e1 h1 e2 h2 hs
    rw [rank_of_mem_rank h1, rank_of_mem_rank h2, hs]
  · intro rows e1 h1 e2 h2 hs
    rw [rank_of_mem_rank h1, rank_of_mem_rank h2]
    unfold rankOfScore
    have := countP_le_of_imp
      (fun x => decide (e1.score < x.score)) (fun x => decide (e2.score < x.score))
      (sortRows rows)
      (by
        intro x _ hx
        simp only [decide_eq_true_eq] at *
        exact lt_of_le_of_lt hs hx)
    omega
  · intro rows i h hne
    have hlen : (rank rows).length = (sortRows rows).length := by
      simp [rank]
    have hs : i + 1 < (sortRows rows).length := hlen ▸ h
    rw [rank_get rows (i + 1) h, rank_get rows i (Nat.lt_of_succ_lt h)] at hne ⊢
    simp only at hne ⊢
    have hcount : (rank rows).countP
        (fun x => decide (x.score = ((sortRows rows).get ⟨i, by simpa [rank] using Nat.lt_of_succ_lt h⟩).score))
        = (sortRows rows).countP
            (fun r => decide (r.score = ((sortRows rows).get ⟨i, by simpa [rank] using Nat.lt_of_succ_lt h⟩).score)) := by
      simp only [rank, List.countP_map]
      rfl
    rw [hcount]
    unfold rankOfScore
    have := countP_gt_skip (sorted_sortRows rows) hs (by
      convert hne using 3)
    convert (by omega : 1 + (sortRows rows).countP (fun x => decide (((sortRows rows).get ⟨i + 1, hs⟩).score < x.score)) = 1 + (sortRows rows).countP (fun x => decide (((sortRows rows).get ⟨i, Nat.lt_of_succ_lt hs⟩).score < x.score)) + (sortRows rows).countP (fun x => decide (x.score = ((sortRows rows).get ⟨i, Nat.lt_of_succ_lt hs⟩).score))) using 2

/-- Witness for C3: applying the ranking theorem at the §8 example, the two
tied rows B and C receive the same rank. -/
theorem rank_standard_competition_witness :
    (⟨2, 90, 2⟩ : LeaderboardEntry).rank = (⟨3, 90, 2⟩ : LeaderboardEntry).rank :=
  rank_standard_competition.1 exampleRows ⟨2, 90, 2⟩ (by decide) ⟨3, 90, 2⟩ (by decide) (by decide)

/-- The induced order on ranked entries: descending by score, ties broken by
entity identifier ascending. -/
def entryOrd (a b : LeaderboardEntry) : Prop :=
  b.score < a.score ∨ (a.score = b.score ∧ a.entityId ≤ b.entityId)

/-- C6: `rank` produces a deterministic total order: its output is sorted
descending by score with ties broken by entity identifier ascending, and it is
a permutation (with ranks attached) of the input rows; being a pure function,
two calls on identical input return identical sequences. -/
theorem rank_deterministic_total_order :
    ∀ rows : List ScoredRow,
      List.Sorted entryOrd (rank rows)
      ∧ ((rank rows).map (fun e => ScoredRow.mk e.entityId e.score)).Perm rows
      ∧ rank rows = rank rows := by
  intro rows
  refine ⟨?_, ?_, rfl⟩
  · unfold rank
    exact List.Pairwise.map _ (fun a b hab => hab) (sorted_sortRows rows)
  · unfold rank
    rw [List.map_map]
    rw [show ((fun e : LeaderboardEntry => ScoredRow.mk e.entityId e.score) ∘
        (fun r : ScoredRow => LeaderboardEntry.mk r.entityId r.score
          (rankOfScore (sortRows rows) r.score))) = id from rfl]
    rw [List.map_id]
    exact perm_sortRows rows

/-- Result of a position lookup: the entity's ranked entry with its immediate
neighbors, or the "not ranked" sentinel. -/
inductive PositionResult where
  | notRanked
  | found (entry : LeaderboardEntry) (above : Option LeaderboardEntry)
      (below : Option LeaderboardEntry)
deriving DecidableEq

/-- Helper for `positionOf`: scans the ranked sequence remembering the entry
just above the scan position. -/
def positionOfAux (above : Option LeaderboardEntry) (eid : Nat) :
    List LeaderboardEntry → PositionResult
  | [] => PositionResult.notRanked
  | e :: rest =>
    if e.entityId = eid then PositionResult.found e above rest.head?
    else positionOfAux (some e) eid rest

/-- Modelled from the spec: the PositionResolver §4.4 (`leaderboard.service`
is not under the available sources).  Looks up an entity in an already-ranked
sequence; returns its entry with immediate neighbors, or the "not ranked"
sentinel when the entity has no row. -/
def positionOf (entries : List LeaderboardEntry) (eid : Nat) : PositionResult :=
  positionOfAux none eid entries

/-- A leaderboard page: the full ranked sequence, the client-facing (possibly
truncated) view derived from it, and the total entry count. -/
structure LeaderboardPage where
  full : List LeaderboardEntry
  client : List LeaderboardEntry
  total : Nat
deriving DecidableEq

/-- Truncation to an optional `maxEntries` cap. -/
def truncateEntries (m : Option Nat) (entries : List LeaderboardEntry) :
    List LeaderboardEntry :=
  match m with
  | none => entries
  | some k => entries.take k

/-- Modelled from the spec: §4.2/§4.4 — ranking is computed once and both the
full and the truncated client view are derived from it. -/
def buildPage (m : Option Nat) (rows : List ScoredRow) : LeaderboardPage :=
  ⟨rank rows, truncateEntries m (rank rows), (rank rows).length⟩

/-- Modelled from the spec: §4.4 — the resolver operates against the
untruncated ranked sequence, not the client-facing view. -/
def resolvePosition (page : LeaderboardPage) (eid : Nat) : PositionResult :=
  positionOf page.full eid

lemma positionOfAux_found {eid : Nat} :
    ∀ (l : List LeaderboardEntry) (ab : Option LeaderboardEntry),
      (∃ e ∈ l, e.entityId = eid) →
      ∃ e ab2 be, positionOfAux ab eid l = PositionResult.found e ab2 be
        ∧ e ∈ l ∧ e.entityId = eid := by
  intro l
  induction l with
  | nil => intro ab h; simp at h
  | cons a l ih =>
    intro ab h
    rcases h with ⟨e, he, heid⟩
    by_cases ha : a.entityId = eid
    · exact ⟨a, ab, l.head?, by simp [positionOfAux, ha],
        List.mem_cons_self a l, ha⟩
    · have he2 : e ∈ l := by
        rcases List.mem_cons.mp he with rfl | h2
        · exact absurd heid ha
        · exact h2
      obtain ⟨e2, ab2, be, hres, hmem, hid⟩ := ih (some a) ⟨e, he2, heid⟩
      exact ⟨e2, ab2, be, by simp [positionOfAux, ha, hres],
        List.mem_cons_of_mem a hmem, hid⟩

lemma positionOfAux_absent {eid : Nat} :
    ∀ (l : List LeaderboardEntry) (ab : Option LeaderboardEntry),
      (∀ e ∈ l, e.entityId ≠ eid) →
      positionOfAux ab eid l = PositionResult.notRanked := by
  intro l
  induction l with
  | nil => intro ab _; rfl
  | cons a l ih =>
    intro ab h
    have ha : a.entityId ≠ eid := h a (List.mem_cons_self a l)
    simp only [positionOfAux, ha, if_false]
    exact ih (some a) (fun e he => h e (List.mem_cons_of_mem a he))

lemma entityId_of_mem_rank {rows : List ScoredRow} {e : LeaderboardEntry}
    (h : e ∈ rank rows) : ∃ r ∈ rows, r.entityId = e.entityId := by
  rcases mem_rank_iff.mp h with ⟨r, hr, he⟩
  exact ⟨r, (perm_sortRows rows).mem_iff.mp hr, by rw [he]⟩

/-- C7: truncation to `maxEntries` happens after rank assignment (the client
view is a prefix of the full ranked sequence), and `positionOf` resolves
against the untruncated ranked sequence, so an entity excluded from the
truncated client page but present in the full ranking still resolves to its
entry (with its true rank) from the full population. -/
theorem positionOf_ignores_truncation :
    ∀ (rows : List ScoredRow) (k eid : Nat),
      (∃ e ∈ rank rows, e.entityId = eid) →
      (buildPage (some k) rows).client = (rank rows).take k
      ∧ resolvePosition (buildPage (some k) rows) eid = positionOf (rank rows) eid
      ∧ ∃ e ab be,
          resolvePosition (buildPage (some k) rows) eid = PositionResult.found e ab be
          ∧ e ∈ rank rows ∧ e.entityId = eid := by
  intro rows k eid h
  refine ⟨rfl, rfl, ?_⟩
  exact positionOfAux_found (rank rows) none h

/-- Witness for C7: in the §8 example truncated to 2 entries, entity D (id 4)
is excluded from the client page yet still resolves against the full ranking. -/
theorem positionOf_ignores_truncation_witness :
    ∃ e ab be,
      resolvePosition (buildPage (some 2) exampleRows) 4 = PositionResult.found e ab be
      ∧ e ∈ rank exampleRows ∧ e.entityId = 4 :=
  (positionOf_ignores_truncation exampleRows 2 4 ⟨⟨4, 80, 4⟩, by decide, rfl⟩).2.2

example : resolvePosition (buildPage (some 2) exampleRows) 4
    = PositionResult.found ⟨4, 80, 4⟩ (some ⟨3, 90, 2⟩) none := by decide

example : (buildPage (some 2) exampleRows).client
    = [⟨1, 100, 1⟩, ⟨2, 90, 2⟩] := by decide

/-- C8: `positionOf` on an entity with no row at all returns the "not ranked"
sentinel (it is a total function, so it never raises), and no produced entry
ever carries rank 0 — every assigned rank is at least 1. -/
theorem positionOf_absent_notRanked :
    (∀ (rows : List ScoredRow) (eid : Nat),
        (∀ r ∈ rows, r.entityId ≠ eid) →
        positionOf (rank rows) eid = PositionResult.notRanked)
    ∧ (∀ rows : List ScoredRow, ∀ e ∈ rank rows, 1 ≤ e.rank) := by
  constructor
  · intro rows eid h
    apply positionOfAux_absent
    intro e he
    rcases entityId_of_mem_rank he with ⟨r, hr, hid⟩
    rw [← hid]
    exact h r hr
  · intro rows e he
    rw [rank_of_mem_rank he]
    unfold rankOfScore
    omega

/-- Witness for C8: entity 99 has no row in the §8 example, so it resolves to
the sentinel; and the top entry's rank is at least 1. -/
theorem positionOf_absent_notRanked_witness :
    positionOf (rank exampleRows) 99 = PositionResult.notRanked
    ∧ 1 ≤ (⟨1, 100, 1⟩ : LeaderboardEntry).rank :=
  ⟨positionOf_absent_notRanked.1 exampleRows 99 (by decide),
   positionOf_absent_notRanked.2 exampleRows ⟨1, 100, 1⟩ (by decide)⟩

/-- Start of the calendar day containing instant `t` in a fixed-offset local
time zone.  Times are minutes since the UTC epoch; `tzOffset` is the zone's
offset east of UTC in minutes.  Int division by the positive constant 1440 is
Euclidean, hence floor division here. -/
def localStartOfDay (tzOffset t : Int) : Int :=
  (t + tzOffset) / 1440 * 1440 - tzOffset

/-- Embeds `expireAt` from the router source:
`dayjs().add(1, 'day').startOf('day').toDate()` — one day is added to the
current instant and the result is floored to the start of a calendar day.
`dayjs()` without a UTC plugin works in the process's local time zone,
modelled as a fixed UTC offset. -/
def expireAt (tzOffset now : Int) : Int :=
  localStartOfDay tzOffset (now + 1440)

/-- The spec's expiry policy (§4.5): the start of the next calendar day in
UTC after moment `now`. -/
def utcStartOfNextDay (now : Int) : Int :=
  (now / 1440 + 1) * 1440

/-- C2 counterexample: for a process whose local time zone is UTC+1
(offset 60 minutes), an entry populated at the epoch instant expires at the
start of the next local day (minute 1380), not at the start of the next UTC
day (minute 1440). -/
theorem expireAt_not_utc_counterexample :
    expireAt 60 0 ≠ utcStartOfNextDay 0 := by decide

/-- C2 amended: `expireAt` yields the start of the next calendar day in the
process's local time zone, computed from the moment it is invoked (cache
population time): it is the unique local-midnight instant in the following
24 hours, and it agrees with the start of the next UTC day exactly when the
process's UTC offset is a whole number of days (in particular zero). -/
theorem expireAt_local_next_day_start :
    ∀ tzOffset now : Int,
      now < expireAt tzOffset now
      ∧ expireAt tzOffset now ≤ now + 1440
      ∧ (expireAt tzOffset now + tzOffset) % 1440 = 0
      ∧ (∀ m : Int, now < m → m ≤ now + 1440 → (m + tzOffset) % 1440 = 0 →
          m = expireAt tzOffset now)
      ∧ (tzOffset % 1440 = 0 → expireAt tzOffset now = utcStartOfNextDay now) := by
  intro tzOffset now
  unfold expireAt localStartOfDay utcStartOfNextDay
  refine ⟨by omega, by omega, by omega, ?_, ?_⟩
  · intro m h1 h2 h3
    omega
  · intro h
    omega

/-- Witness for C2's amended theorem: at UTC offset 60 and population time 0,
minute 1380 satisfies the local-midnight characterization, so it is the
computed expiry. -/
theorem expireAt_local_next_day_start_witness :
    (1380 : Int) = expireAt 60 0 :=
  (expireAt_local_next_day_start 60 0).2.2.2.1 1380 (by decide) (by decide) (by decide)

/-- The three procedures exposed by the leaderboard router. -/
inductive ProcName where
  | getLeaderboards
  | getLeaderboardPositions
  | getLeaderboard
deriving DecidableEq

/-- A router procedure together with whether the `edgeCacheIt` middleware is
installed on it. -/
structure Procedure where
  name : ProcName
  usesEdgeCacheIt : Bool
deriving DecidableEq

/-- Embeds `leaderboardRouter` from the source: three public procedures, of
which only `getLeaderboard` carries `.use(edgeCacheIt(\x7b expireAt \x7d))`. -/
def leaderboardRouterProcs : List Procedure :=
  [⟨ProcName.getLeaderboards, false⟩,
   ⟨ProcName.getLeaderboardPositions, false⟩,
   ⟨ProcName.getLeaderboard, true⟩]

/-- C9: the router exposes exactly the three query procedures, and
`getLeaderboard` is the only one wrapped by the caching middleware —
`getLeaderboards` and `getLeaderboardPositions` run uncached. -/
theorem only_getLeaderboard_cached :
    (leaderboardRouterProcs.map Procedure.name)
      = [ProcName.getLeaderboards, ProcName.getLeaderboardPositions,
         ProcName.getLeaderboard]
    ∧ ∀ p ∈ leaderboardRouterProcs,
        (p.usesEdgeCacheIt = true ↔ p.name = ProcName.getLeaderboard) := by
  refine ⟨rfl, ?_⟩
  intro p hp
  fin_cases hp <;> simp

/-- Witness for C9: the `getLeaderboard` procedure itself satisfies the
cached-iff-getLeaderboard equivalence. -/
theorem only_getLeaderboard_cached_witness :
    ((⟨ProcName.getLeaderboard, true⟩ : Procedure).usesEdgeCacheIt = true
      ↔ (⟨ProcName.getLeaderboard, true⟩ : Procedure).name = ProcName.getLeaderboard) :=
  only_getLeaderboard_cached.2 ⟨ProcName.getLeaderboard, true⟩ (by decide)

/-- The authenticated user attached to a request context; the moderator flag
may itself be absent from the user record. -/
structure User where
  id : Nat
  isModerator : Option Bool
deriving DecidableEq

/-- The request context: carries an optional authenticated user. -/
structure Ctx where
  user : Option User
deriving DecidableEq

/-- Embeds the expression `ctx?.user?.isModerator ?? false` used by every
handler in the router source. -/
def modFlag (ctx : Ctx) : Bool :=
  (ctx.user.bind User.isModerator).getD false

/-- Input of `getLeaderboardPositions` (its zod schema is not under the
available sources; fields follow §6: leaderboard id, date, optional user id). -/
structure PositionsInput where
  leaderboardId : String
  date : Nat
  userId : Option Nat
deriving DecidableEq

/-- Argument record handed to the positions service. -/
structure PositionsServiceArgs where
  leaderboardId : String
  date : Nat
  userId : Option Nat
  isModerator : Bool
deriving DecidableEq

/-- The error taxonomy of §7 (only the variants the claims exercise). -/
inductive AppError where
  | badRequest
deriving DecidableEq

/-- Successful positions payload, abstracted to the resolved user id and the
privilege flag the service actually received. -/
structure PositionsOk where
  userId : Nat
  isModerator : Bool
deriving DecidableEq

/-- Modelled from the spec: `getLeaderboardPositions` of `leaderboard.service`
(not under the available sources).  Per §6 it fails with `BadRequest` when no
entity/user id is available; the successful payload is abstracted. -/
def getLeaderboardPositionsService (args : PositionsServiceArgs) :
    Except AppError PositionsOk :=
  match args.userId with
  | none => Except.error AppError.badRequest
  | some uid => Except.ok ⟨uid, args.isModerator⟩

/-- Embeds the router's `getLeaderboardPositions` argument construction:
`\x7b ...input, userId: input.userId ?? ctx.user?.id,
isModerator: ctx?.user?.isModerator ?? false \x7d`. -/
def positionsArgsOf (input : PositionsInput) (ctx : Ctx) : PositionsServiceArgs :=
  { leaderboardId := input.leaderboardId
    date := input.date
    userId := match input.userId with
      | some u => some u
      | none => ctx.user.map User.id
    isModerator := modFlag ctx }

/-- Embeds the router's `getLeaderboardPositions` handler: build the service
arguments, then call the service. -/
def routerGetLeaderboardPositions (input : PositionsInput) (ctx : Ctx) :
    Except AppError PositionsOk :=
  getLeaderboardPositionsService (positionsArgsOf input ctx)

/-- C4: when the user id is omitted from a `getLeaderboardPositions` request
it defaults to the authenticated caller's own id (an explicit id is passed
through unchanged), and when it is omitted and no caller identity is
available the operation fails with `BadRequest`. -/
theorem positions_userId_default_and_badRequest :
    (∀ (input : PositionsInput) (ctx : Ctx) (u : Nat),
        input.userId = some u → (positionsArgsOf input ctx).userId = some u)
    ∧ (∀ (input : PositionsInput) (ctx : Ctx) (usr : User),
        input.userId = none → ctx.user = some usr →
        (positionsArgsOf input ctx).userId = some usr.id)
    ∧ (∀ (input : PositionsInput) (ctx : Ctx),
        input.userId = none → ctx.user = none →
        routerGetLeaderboardPositions input ctx = Except.error AppError.badRequest) := by
  refine ⟨?_, ?_, ?_⟩
  · intro input ctx u h
    simp [positionsArgsOf, h]
  · intro input ctx usr h hu
    simp [positionsArgsOf, h, hu]
  · intro input ctx h hu
    simp [routerGetLeaderboardPositions, getLeaderboardPositionsService,
      positionsArgsOf, h, hu]

/-- Witness for C4: a request without a user id from an unauthenticated
context fails with `BadRequest`. -/
theorem positions_userId_default_and_badRequest_witness :
    routerGetLeaderboardPositions ⟨"weekly", 0, none⟩ ⟨none⟩
      = Except.error AppError.badRequest :=
  positions_userId_default_and_badRequest.2.2 ⟨"weekly", 0, none⟩ ⟨none⟩ rfl rfl

/-- Argument record handed to the `getLeaderboards` service. -/
structure GetLeaderboardsArgs where
  isModerator : Bool
deriving DecidableEq

/-- Embeds the router's `getLeaderboards` handler argument construction:
`getLeaderboards(\x7b isModerator: ctx?.user?.isModerator ?? false \x7d)`. -/
def getLeaderboardsArgsOf (ctx : Ctx) : GetLeaderboardsArgs :=
  ⟨modFlag ctx⟩

/-- Input of `getLeaderboard` (its zod schema is not under the available
sources; fields follow §6: leaderboard id, date, pagination cursor). -/
structure LeaderboardInput where
  leaderboardId : String
  date : Nat
  cursor : Option Nat
deriving DecidableEq

/-- Argument record handed to the `getLeaderboard` service. -/
structure GetLeaderboardArgs where
  leaderboardId : String
  date : Nat
  cursor : Option Nat
  isModerator : Bool
deriving DecidableEq

/-- Embeds the router's `getLeaderboard` handler argument construction:
`getLeaderboard(\x7b ...input, isModerator: ctx?.user?.isModerator ?? false \x7d)`. -/
def leaderboardArgsOf (input : LeaderboardInput) (ctx : Ctx) : GetLeaderboardArgs :=
  ⟨input.leaderboardId, input.date, input.cursor, modFlag ctx⟩

/-- C10: for each of the three exposed operations, a context without an
authenticated user — or whose user record lacks the moderator flag — makes the
underlying service receive `isModerator = false`; no error and no undefined
privilege value arises. -/
theorem unauthenticated_isModerator_false :
    ∀ ctx : Ctx,
      (ctx.user = none ∨ ∃ u, ctx.user = some u ∧ u.isModerator = none) →
      (getLeaderboardsArgsOf ctx).isModerator = false
      ∧ (∀ input : PositionsInput, (positionsArgsOf input ctx).isModerator = false)
      ∧ (∀ input : LeaderboardInput, (leaderboardArgsOf input ctx).isModerator = false) := by
  intro ctx h
  have hm : modFlag ctx = false := by
    rcases h with h | ⟨u, hu, hmod⟩
    · simp [modFlag, h]
    · simp [modFlag, hu, hmod]
  exact ⟨hm, fun _ => hm, fun _ => hm⟩

/-- Witness for C10: the empty context yields `isModerator = false` for the
`getLeaderboards` service call. -/
theorem unauthenticated_isModerator_false_witness :
    (getLeaderboardsArgsOf ⟨none⟩).isModerator = false :=
  (unauthenticated_isModerator_false ⟨none⟩ (Or.inl rfl)).1

/-- A cache key for the wrapped `getLeaderboard` operation. -/
structure CacheKey where
  opName : String
  input : LeaderboardInput
  isModerator : Bool
deriving DecidableEq

/-- Modelled from the spec: the TimeWindowedCache key derivation of §4.5
(the `edgeCacheIt` middleware is not under the available sources) — a pure
function of the normalized operation name and all input parameters including
the caller's privilege class, modelled as the injective tuple of those
parameters. -/
def cacheKey (opName : String) (input : LeaderboardInput) (isModerator : Bool) :
    CacheKey :=
  ⟨opName, input, isModerator⟩

/-- Modelled from the spec: a cache lookup returns only a value stored under
exactly the requested key. -/
def cacheLookup : List (CacheKey × LeaderboardPage) → CacheKey →
    Option LeaderboardPage
  | [], _ => none
  | e :: rest, k => if e.1 = k then some e.2 else cacheLookup rest k

/-- C1: the cache key is a pure function of the operation name and the full
input including the caller's privilege class: two requests differing only in
the moderator flag get different keys, and a lookup only ever returns a page
stored under exactly the requested key — so a page computed for one privilege
class is never served to the other. -/
theorem cacheKey_privilege_separation :
    (∀ (op : String) (input : LeaderboardInput) (m1 m2 : Bool),
        m1 ≠ m2 → cacheKey op input m1 ≠ cacheKey op input m2)
    ∧ (∀ (store : List (CacheKey × LeaderboardPage)) (k : CacheKey)
        (page : LeaderboardPage),
        cacheLookup store k = some page → (k, page) ∈ store) := by
  constructor
  · intro op input m1 m2 hne heq
    exact hne (congrArg CacheKey.isModerator heq)
  · intro store
    induction store with
    | nil => intro k page h; simp [cacheLookup] at h
    | cons e rest ih =>
      intro k page h
      by_cases he : e.1 = k
      · simp only [cacheLookup, he, if_pos] at h
        have he2 : e = (k, page) := by
          cases e
          simp only [Option.some.injEq] at he h
          rw [← he, ← h]
        rw [← he2]
        exact List.mem_cons_self e rest
      · simp only [cacheLookup, he, if_neg, not_false_iff] at h
        exact List.mem_cons_of_mem e (ih k page h)

/-- Witness for C1: the moderator and non-moderator variants of one concrete
request produce different cache keys. -/
theorem cacheKey_privilege_separation_witness :
    cacheKey "getLeaderboard" ⟨"weekly", 0, none⟩ true
      ≠ cacheKey "getLeaderboard" ⟨"weekly", 0, none⟩ false :=
  cacheKey_privilege_separation.1 "getLeaderboard" ⟨"weekly", 0, none⟩ true false
    (by decide)

/-- State of the TimeWindowedCache for one key: whether a value is cached,
whether a computation is in flight, how many upstream fetches have started,
how many callers are waiting on the in-flight computation, and how many
callers have been handed the computation's outcome. -/
structure CoState where
  cached : Bool
  inFlight : Bool
  fetches : Nat
  waiters : Nat
  delivered : Nat
deriving DecidableEq

/-- An interleaving event on one cache key: a request arrives, or the
in-flight computation completes. -/
inductive CoEvent where
  | request
  | complete
deriving DecidableEq

/-- Modelled from the spec: the request-coalescing discipline of §4.5/§5
(the `edgeCacheIt` middleware is not under the available sources).  A request
on a cached key is served at once; a request during an in-flight computation
joins it as a waiter; a request on a cold key starts the single upstream
fetch; completion hands the outcome to every waiter. -/
def coStep (s : CoState) : CoEvent → CoState
  | CoEvent.request =>
    if s.cached then { s with delivered := s.delivered + 1 }
    else if s.inFlight then { s with waiters := s.waiters + 1 }
    else { s with inFlight := true, fetches := s.fetches + 1, waiters := s.waiters + 1 }
  | CoEvent.complete =>
    if s.inFlight then
      { s with inFlight := false, cached := true,
               delivered := s.delivered + s.waiters, waiters := 0 }
    else s

/-- Run a sequence of events from a state. -/
def coRun (s : CoState) (evts : List CoEvent) : CoState :=
  evts.foldl coStep s

/-- The cold initial state for a key: nothing cached, nothing in flight. -/
def coInit : CoState :=
  ⟨false, false, 0, 0, 0⟩

lemma coRun_requests_inFlight (k : Nat) :
    ∀ n : Nat, coRun ⟨false, true, 1, k, 0⟩ (List.replicate n CoEvent.request)
      = ⟨false, true, 1, k + n, 0⟩ := by
  intro n
  induction n generalizing k with
  | zero => rfl
  | succ m ih =>
    have : List.replicate (m + 1) CoEvent.request
        = CoEvent.request :: List.replicate m CoEvent.request := rfl
    rw [this]
    show coRun (coStep ⟨false, true, 1, k, 0⟩ CoEvent.request)
      (List.replicate m CoEvent.request) = _
    have hstep : coStep ⟨false, true, 1, k, 0⟩ CoEvent.request
        = ⟨false, true, 1, k + 1, 0⟩ := by
      simp [coStep]
    rw [hstep, ih (k + 1)]
    have : k + 1 + m = k + (m + 1) := by omega
    rw [this]

/-- C5: when any number `n ≥ 1` of identical requests arrive on a cold key
while (after the first) a computation is in flight, they all coalesce onto the
single in-progress computation: exactly one upstream fetch is started, and on
completion every one of the `n` callers receives the computation's outcome. -/
theorem cache_coalescing_single_fetch :
    ∀ n : Nat, 1 ≤ n →
      (coRun coInit (List.replicate n CoEvent.request ++ [CoEvent.complete])).fetches = 1
      ∧ (coRun coInit (List.replicate n CoEvent.request ++ [CoEvent.complete])).delivered = n
      ∧ (coRun coInit (List.replicate n CoEvent.request ++ [CoEvent.complete])).cached = true := by
  intro n hn
  obtain ⟨m, rfl⟩ : ∃ m, n = m + 1 := ⟨n - 1, by omega⟩
  have hsplit : List.replicate (m + 1) CoEvent.request
      = CoEvent.request :: List.replicate m CoEvent.request := rfl
  have hrun : coRun coInit (List.replicate (m + 1) CoEvent.request)
      = ⟨false, true, 1, m + 1, 0⟩ := by
    rw [hsplit]
    show coRun (coStep coInit CoEvent.request) (List.replicate m CoEvent.request) = _
    have hstep : coStep coInit CoEvent.request = ⟨false, true, 1, 1, 0⟩ := by
      simp [coStep, coInit]
    rw [hstep, coRun_requests_inFlight 1 m]
    have : 1 + m = m + 1 := by omega
    rw [this]
  have hall : coRun coInit (List.replicate (m + 1) CoEvent.request ++ [CoEvent.complete])
      = coStep (coRun coInit (List.replicate (m + 1) CoEvent.request)) CoEvent.complete := by
    unfold coRun
    rw [List.foldl_append]
    rfl
  rw [hall, hrun]
  simp [coStep]

/-- Witness for C5: three simultaneous cache-miss requests on one key cause
exactly one upstream fetch and three deliveries. -/
theorem cache_coalescing_single_fetch_witness :
    (coRun coInit (List.replicate 3 CoEvent.request ++ [CoEvent.complete])).fetches = 1
    ∧ (coRun coInit (List.replicate 3 CoEvent.request ++ [CoEvent.complete])).delivered = 3
    ∧ (coRun coInit (List.replicate 3 CoEvent.request ++ [CoEvent.complete])).cached = true :=
  cache_coalescing_single_fetch 3 (by decide)
